import Mathlib

/-!
Verification of the undoable MIDI sequence engine of the Helio workstation
repository, as excerpted in `Source/Core/Midi/Sequences/TimeSignaturesSequence.cpp`,
`Source/Core/Midi/Patterns/Clip.cpp`, and
`Source/Core/Undo/Actions/KeySignatureEventActions.h`.

Beats are modelled as rationals (the C++ code uses `float`; no claim here
depends on rounding of binary floating point, only on sign comparisons and
on the sub-beat quantization grid, which occur at small, exactly
representable magnitudes in the witnesses), ids as strings, and the JUCE
`Array` of owned event pointers as a `List` of event values.
-/

namespace Helio

/-- A time signature event: unique `id` within its sequence, `beat`
position, and the numerator/denominator payload.  Translated from
`TimeSignatureEvent` as used by `TimeSignaturesSequence.cpp` (the value
copy `new TimeSignatureEvent(this, eventParams)` keeps id, beat and
payload, so a stored event is value-equal to its parameters). -/
structure TimeSignatureEvent where
  id : String
  beat : Rat
  numerator : Nat
  denominator : Nat
deriving DecidableEq, Repr

namespace TimeSignatureEvent

/-- Modelled from the spec: the event comparator (`MidiEvent::compareElements`
is not among the provided sources; the spec states ordering "compares by
beat, with id as tie-break only for equality detection, never for sort
order", exactly the shape of the provided `Clip::compareElements`): two
events with the same id compare equal regardless of beats; otherwise the
result is the sign of the beat difference, so distinct ids with equal beats
also compare equal. -/
def compareElements (first second : TimeSignatureEvent) : Int :=
  if first.id = second.id then 0
  else if second.beat < first.beat then 1
  else if first.beat < second.beat then -1
  else 0

/-- Modelled from the spec: `TimeSignatureEvent::applyChanges` (not among
the provided sources) "applies new values in place (same object, so
existing references stay valid)"; following the provided
`Clip::applyChanges` exemplar it copies the mutable fields and keeps the
receiver's id (the source asserts the two ids are equal). -/
def applyChanges (e other : TimeSignatureEvent) : TimeSignatureEvent :=
  { e with beat := other.beat,
           numerator := other.numerator,
           denominator := other.denominator }

end TimeSignatureEvent

/-- Modelled from the spec: `Array::addSorted` of the JUCE container used
for `midiEvents` (library code, not under the provided sources) "inserts
into the sorted store at its correct position": the new element is placed
before the first stored element that compares strictly greater, i.e. after
any run of equal-comparing elements. -/
def addSorted : List TimeSignatureEvent → TimeSignatureEvent → List TimeSignatureEvent
  | [], e => [e]
  | x :: xs, e =>
      if TimeSignatureEvent.compareElements e x < 0 then e :: x :: xs
      else x :: addSorted xs e

/-- Modelled from the spec: the `indexOfSorted` lookup followed by the
access `midiEvents[index]` and the removal `midiEvents.remove(index)`,
fused into one function: scan for the first stored element that the
comparator considers equal to the query ("locates the event by identity
match via the sorted comparator"), returning that element together with
the store with it removed. -/
def findSorted (q : TimeSignatureEvent) :
    List TimeSignatureEvent → Option (TimeSignatureEvent × List TimeSignatureEvent)
  | [] => none
  | x :: xs =>
      if TimeSignatureEvent.compareElements q x = 0 then some (x, xs)
      else
        match findSorted q xs with
        | some (y, rest) => some (y, x :: rest)
        | none => none

/-- The observable state of a `TimeSignaturesSequence`: the sorted store
`midiEvents` and the set `usedEventIds` (kept as a list of ids). -/
structure SequenceState where
  midiEvents : List TimeSignatureEvent
  usedEventIds : List String
deriving DecidableEq, Repr

/-- One notification sent to sequence listeners, in emission order:
`notifyEventAdded`, `notifyEventRemoved`, `notifyEventChanged`,
`updateBeatRange` (with its user-visible-change flag), and
`notifyEventRemovedPostAction`. -/
inductive SeqNote where
  | eventAdded (e : TimeSignatureEvent)
  | eventRemoved (e : TimeSignatureEvent)
  | eventChanged (oldParams newParams : TimeSignatureEvent)
  | beatRangeUpdated (visibleChange : Bool)
  | eventRemovedPostAction
deriving DecidableEq, Repr

namespace TimeSignaturesSequence

open TimeSignatureEvent

/-- Non-undoable branch of `TimeSignaturesSequence::insert`: add the owned
copy sorted, notify `eventAdded`, update the beat range as a user-visible
change.  (The used-id set is not touched by this path in the source.) -/
def insert (s : SequenceState) (eventParams : TimeSignatureEvent) :
    SequenceState × List SeqNote :=
  ({ s with midiEvents := addSorted s.midiEvents eventParams },
   [SeqNote.eventAdded eventParams, SeqNote.beatRangeUpdated true])

/-- Non-undoable branch of `TimeSignaturesSequence::remove`: look up the
first comparator-equal stored event; if found, notify `eventRemoved` with
the stored event before removing it, update the beat range, then notify
post-action, returning `true`; otherwise a no-op returning `false`. -/
def remove (s : SequenceState) (signature : TimeSignatureEvent) :
    SequenceState × List SeqNote × Bool :=
  match findSorted signature s.midiEvents with
  | some (removedEvent, rest) =>
      ({ s with midiEvents := rest },
       [SeqNote.eventRemoved removedEvent, SeqNote.beatRangeUpdated true,
        SeqNote.eventRemovedPostAction], true)
  | none => (s, [], false)

/-- Non-undoable branch of `TimeSignaturesSequence::change`: look up the
first comparator-equal stored event for `oldParams`; if found, apply the
new values in place, remove it from its slot and re-add it sorted, notify
`eventChanged (oldParams, changed)`, update the beat range, returning
`true`; otherwise a no-op returning `false`. -/
def change (s : SequenceState) (oldParams newParams : TimeSignatureEvent) :
    SequenceState × List SeqNote × Bool :=
  match findSorted oldParams s.midiEvents with
  | some (found, rest) =>
      let changedEvent := found.applyChanges newParams
      ({ s with midiEvents := addSorted rest changedEvent },
       [SeqNote.eventChanged oldParams changedEvent, SeqNote.beatRangeUpdated true],
       true)
  | none => (s, [], false)

/-- `TimeSignaturesSequence::silentImport`: if the id is already used,
`jassertfalse` (modelled as the returned `Bool` flag) and skip, leaving the
state unchanged; otherwise store the copy sorted, register the id and
update the beat range non-visibly. -/
def silentImport (s : SequenceState) (eventToImport : TimeSignatureEvent) :
    SequenceState × List SeqNote × Bool :=
  if eventToImport.id ∈ s.usedEventIds then (s, [], true)
  else
    ({ midiEvents := addSorted s.midiEvents eventToImport,
       usedEventIds := eventToImport.id :: s.usedEventIds },
     [SeqNote.beatRangeUpdated false], false)

/-- The import loop of `TimeSignaturesSequence::importMidi` restricted to
its already-decoded events: `silentImport` each one in order. -/
def silentImportAll (s : SequenceState) : List TimeSignatureEvent → SequenceState
  | [] => s
  | e :: rest => silentImportAll (silentImport s e).1 rest

/-- Loop body of the non-undoable branch of
`TimeSignaturesSequence::insertGroup`: add each member sorted and notify
`eventAdded` for it. -/
def insertGroupLoop (s : SequenceState) :
    List TimeSignatureEvent → SequenceState × List SeqNote
  | [] => (s, [])
  | e :: rest =>
      let s1 : SequenceState := { s with midiEvents := addSorted s.midiEvents e }
      let r := insertGroupLoop s1 rest
      (r.1, SeqNote.eventAdded e :: r.2)

/-- Non-undoable branch of `TimeSignaturesSequence::insertGroup`: the loop
followed by exactly one beat-range update; always returns `true`. -/
def insertGroup (s : SequenceState) (signatures : List TimeSignatureEvent) :
    SequenceState × List SeqNote × Bool :=
  let r := insertGroupLoop s signatures
  (r.1, r.2 ++ [SeqNote.beatRangeUpdated true], true)

/-- Loop body of the non-undoable branch of
`TimeSignaturesSequence::removeGroup`: for each member, look up the first
comparator-equal stored event; if found, notify `eventRemoved` and remove
it; members not found are skipped silently. -/
def removeGroupLoop (s : SequenceState) :
    List TimeSignatureEvent → SequenceState × List SeqNote
  | [] => (s, [])
  | q :: rest =>
      match findSorted q s.midiEvents with
      | some (removedSignature, tail') =>
          let s1 : SequenceState := { s with midiEvents := tail' }
          let r := removeGroupLoop s1 rest
          (r.1, SeqNote.eventRemoved removedSignature :: r.2)
      | none => removeGroupLoop s rest

/-- Non-undoable branch of `TimeSignaturesSequence::removeGroup`: the loop
followed by exactly one beat-range update and one post-removal
notification; always returns `true`. -/
def removeGroup (s : SequenceState) (signatures : List TimeSignatureEvent) :
    SequenceState × List SeqNote × Bool :=
  let r := removeGroupLoop s signatures
  (r.1, r.2 ++ [SeqNote.beatRangeUpdated true, SeqNote.eventRemovedPostAction], true)

/-- Loop body of the non-undoable branch of
`TimeSignaturesSequence::changeGroup`, iterating the paired
(before, after) parameters: for each pair whose `before` is found, apply
the changes in place, re-add sorted and notify `eventChanged`; pairs whose
`before` is not found are skipped silently. -/
def changeGroupLoop (s : SequenceState) :
    List (TimeSignatureEvent × TimeSignatureEvent) → SequenceState × List SeqNote
  | [] => (s, [])
  | p :: rest =>
      match findSorted p.1 s.midiEvents with
      | some (found, tail') =>
          let changedEvent := found.applyChanges p.2
          let s1 : SequenceState := { s with midiEvents := addSorted tail' changedEvent }
          let r := changeGroupLoop s1 rest
          (r.1, SeqNote.eventChanged p.1 changedEvent :: r.2)
      | none => changeGroupLoop s rest

/-- Non-undoable branch of `TimeSignaturesSequence::changeGroup` (the
source iterates index `i` over both arrays after asserting equal sizes,
which is the zip of the two lists): the loop followed by exactly one
beat-range update; always returns `true`. -/
def changeGroup (s : SequenceState) (groupBefore groupAfter : List TimeSignatureEvent) :
    SequenceState × List SeqNote × Bool :=
  let r := changeGroupLoop s (groupBefore.zip groupAfter)
  (r.1, r.2 ++ [SeqNote.beatRangeUpdated true], true)

/-- `TimeSignaturesSequence::serialize`: emit each stored event as a child
record via `prependChildElement`, so the output order is the reverse of
the internal iteration order. -/
def serialize (s : SequenceState) : List TimeSignatureEvent :=
  s.midiEvents.foldl (fun xml event => event :: xml) []

/-- Modelled from the spec: `MidiSequence::sort` (not among the provided
sources) re-sorts the store with the event comparator once at the end of a
bulk load; modelled as insertion sort through the same `addSorted`. -/
def sortEvents (l : List TimeSignatureEvent) : List TimeSignatureEvent :=
  l.foldl addSorted []

/-- The child-element loop of `TimeSignaturesSequence::deserialize`:
append each decoded record to the store unsorted (`midiEvents.add`) and
register its id. -/
def deserializeLoadLoop (s : SequenceState) : List TimeSignatureEvent → SequenceState
  | [] => s
  | r :: rest =>
      deserializeLoadLoop
        { midiEvents := s.midiEvents ++ [r], usedEventIds := r.id :: s.usedEventIds }
        rest

/-- `TimeSignaturesSequence::deserialize`: reset, append each decoded
child record unsorted while registering its id, then sort once at the
end. -/
def deserialize (records : List TimeSignatureEvent) : SequenceState :=
  let loaded := deserializeLoadLoop { midiEvents := [], usedEventIds := [] } records
  { loaded with midiEvents := sortEvents loaded.midiEvents }

/-- `TimeSignaturesSequence::reset`: clear the store and the used ids. -/
def reset (s : SequenceState) : SequenceState :=
  { s with midiEvents := [], usedEventIds := [] }

end TimeSignaturesSequence

/-- Modelled from the spec: `UndoAction::perform` of the per-event-kind
Insert action (`KeySignatureEventActions.h` declares the interface; the
bodies are not among the provided sources): "Insert.perform =
sequence.insert(nonundoable)". -/
def insertActionPerform (s : SequenceState) (event : TimeSignatureEvent) : SequenceState :=
  (TimeSignaturesSequence.insert s event).1

/-- Modelled from the spec: "Insert.undo = sequence.remove(nonundoable) of
the same id". -/
def insertActionUndo (s : SequenceState) (event : TimeSignatureEvent) : SequenceState :=
  (TimeSignaturesSequence.remove s event).1

/-- Modelled from the spec: "Remove is the mirror of Insert" — perform
removes non-undoably. -/
def removeActionPerform (s : SequenceState) (event : TimeSignatureEvent) : SequenceState :=
  (TimeSignaturesSequence.remove s event).1

/-- Modelled from the spec: Remove.undo re-inserts the captured event
non-undoably. -/
def removeActionUndo (s : SequenceState) (event : TimeSignatureEvent) : SequenceState :=
  (TimeSignaturesSequence.insert s event).1

/-- Modelled from the spec: "Change.perform = sequence.change(before→after)". -/
def changeActionPerform (s : SequenceState) (eventBefore eventAfter : TimeSignatureEvent) :
    SequenceState :=
  (TimeSignaturesSequence.change s eventBefore eventAfter).1

/-- Modelled from the spec: "Change.undo = sequence.change(after→before)". -/
def changeActionUndo (s : SequenceState) (eventBefore eventAfter : TimeSignatureEvent) :
    SequenceState :=
  (TimeSignaturesSequence.change s eventAfter eventBefore).1

/-- Modelled from the spec: `roundBeat`, the fixed sub-beat quantization
grid applied to beat positions (the helper is not among the provided
sources; `Clip.cpp` calls it); rounding to the nearest sixteenth of a
beat. -/
def roundBeat (beat : Rat) : Rat :=
  ((⌊beat * 16 + 1 / 2⌋ : Int) : Rat) / 16

/-- A clip: reference to a pattern is dropped (non-owning back-pointer);
the observable value is the `id` and the `startBeat`.  Translated from
`Clip.cpp`. -/
structure Clip where
  id : String
  startBeat : Rat
deriving DecidableEq, Repr

/-- The decoded attributes of a persisted clip record: optional `start`
and `id` attributes (absent attributes fall back to the defaults in
`Clip::deserialize`). -/
structure ClipRecord where
  start : Option Rat
  id : Option String
deriving DecidableEq, Repr

namespace Clip

/-- `Clip::Clip(WeakReference<Pattern>, float beatVal)`: the start beat is
quantized through `roundBeat`; the id is generated by the owning pattern
(passed in here, since id generation lives outside the clip). -/
def create (newId : String) (beatVal : Rat) : Clip :=
  { id := newId, startBeat := roundBeat beatVal }

/-- `Clip::withDeltaBeat`: shift the start beat and quantize through
`roundBeat`. -/
def withDeltaBeat (c : Clip) (deltaPosition : Rat) : Clip :=
  { c with startBeat := roundBeat (c.startBeat + deltaPosition) }

/-- `Clip::applyChanges`: copy the other clip's start beat verbatim (the
source asserts the ids are equal and keeps the receiver's id). -/
def applyChanges (c other : Clip) : Clip :=
  { c with startBeat := other.startBeat }

/-- `Clip::deserialize`: read the `start` and `id` attributes, falling
back to the current values when absent; the start beat is stored verbatim,
without `roundBeat`. -/
def deserialize (c : Clip) (xml : ClipRecord) : Clip :=
  { startBeat := xml.start.getD c.startBeat, id := xml.id.getD c.id }

/-- `Clip::compareElements` (the pointer-identity shortcut of the source
is unobservable on values): equal ids compare equal regardless of beats;
otherwise the sign of the start-beat difference. -/
def compareElements (first second : Clip) : Int :=
  if first.id = second.id then 0
  else if second.startBeat < first.startBeat then 1
  else if first.startBeat < second.startBeat then -1
  else 0

end Clip

/-- The store invariant of a healthy sequence in strict form: pairwise
distinct ids and strictly increasing beats (sorted order with no beat
collisions). -/
abbrev StrictStore (l : List TimeSignatureEvent) : Prop :=
  l.Pairwise (fun a b => a.id ≠ b.id ∧ a.beat < b.beat)

/-- Non-decreasing beat order of the store: the sort invariant. -/
abbrev BeatSorted (l : List TimeSignatureEvent) : Prop :=
  l.Pairwise (fun a b => a.beat ≤ b.beat)

/-- Pairwise distinct ids: the id-uniqueness invariant. -/
abbrev UniqueIds (l : List TimeSignatureEvent) : Prop :=
  l.Pairwise (fun a b => a.id ≠ b.id)

/-- Freshness of an event against a store: its id and beat both unused. -/
abbrev FreshFor (e : TimeSignatureEvent) (l : List TimeSignatureEvent) : Prop :=
  ∀ x ∈ l, x.id ≠ e.id ∧ x.beat ≠ e.beat

namespace TimeSignatureEvent

theorem compareElements_self (a : TimeSignatureEvent) : compareElements a a = 0 := by
  simp [compareElements]

theorem compareElements_of_id_eq {a b : TimeSignatureEvent} (h : a.id = b.id) :
    compareElements a b = 0 := by
  simp [compareElements, h]

theorem compareElements_eq_zero_iff {a b : TimeSignatureEvent} :
    compareElements a b = 0 ↔ a.id = b.id ∨ a.beat = b.beat := by
  unfold compareElements
  split_ifs with h1 h2 h3
  · simp [h1]
  · simp only [h1, false_or]
    constructor
    · intro h; exact absurd h (by decide)
    · intro h; exact absurd h (ne_of_gt h2)
  · simp only [h1, false_or]
    constructor
    · intro h; exact absurd h (by decide)
    · intro h; exact absurd h (ne_of_lt h3)
  · simp only [h1, false_or, eq_self_iff_true, true_iff]
    exact le_antisymm (le_of_not_lt h2) (le_of_not_lt h3)

theorem compareElements_neg {a b : TimeSignatureEvent}
    (h1 : a.id ≠ b.id) (h2 : a.beat < b.beat) : compareElements a b = -1 := by
  unfold compareElements
  rw [if_neg h1, if_neg (asymm h2), if_pos h2]

theorem compareElements_pos {a b : TimeSignatureEvent}
    (h1 : a.id ≠ b.id) (h2 : b.beat < a.beat) : compareElements a b = 1 := by
  unfold compareElements
  rw [if_neg h1, if_pos h2]

theorem compareElements_ne_zero {a b : TimeSignatureEvent}
    (h1 : a.id ≠ b.id) (h2 : a.beat ≠ b.beat) : compareElements a b ≠ 0 := by
  rw [Ne, compareElements_eq_zero_iff]; push_neg; exact ⟨h1, h2⟩

theorem compareElements_lt_zero_iff {a b : TimeSignatureEvent} :
    compareElements a b < 0 ↔ a.id ≠ b.id ∧ a.beat < b.beat := by
  unfold compareElements
  split_ifs with h1 h2 h3
  · simp [h1]
  · constructor
    · intro h; exact absurd h (by decide)
    · intro h; exact absurd h.2 (asymm h2)
  · simp [h1, h3]
  · constructor
    · intro h; exact absurd h (by decide)
    · intro h; exact absurd h.2 h3

@[simp] theorem applyChanges_id (e other : TimeSignatureEvent) :
    (e.applyChanges other).id = e.id := rfl

@[simp] theorem applyChanges_beat (e other : TimeSignatureEvent) :
    (e.applyChanges other).beat = other.beat := rfl

end TimeSignatureEvent

open TimeSignatureEvent

theorem mem_addSorted {x e : TimeSignatureEvent} :
    ∀ {l : List TimeSignatureEvent}, x ∈ addSorted l e ↔ x = e ∨ x ∈ l
  | [] => by simp [addSorted]
  | y :: ys => by
      unfold addSorted
      split_ifs with h
      · simp
      · simp only [List.mem_cons, mem_addSorted (l := ys)]
        tauto

theorem addSorted_perm (l : List TimeSignatureEvent) (e : TimeSignatureEvent) :
    List.Perm (addSorted l e) (e :: l) := by
  induction l with
  | nil => simp [addSorted]
  | cons y ys ih =>
      unfold addSorted
      split_ifs with h
      · exact List.Perm.refl _
      · exact ((ih.cons y).trans (List.Perm.swap e y ys))

theorem addSorted_beatSorted {l : List TimeSignatureEvent} {e : TimeSignatureEvent}
    (hs : BeatSorted l) (hid : ∀ x ∈ l, x.id ≠ e.id) : BeatSorted (addSorted l e) := by
  induction l with
  | nil => simp [addSorted, BeatSorted]
  | cons y ys ih =>
      replace hs : (∀ b ∈ ys, y.beat ≤ b.beat) ∧ BeatSorted ys := List.pairwise_cons.mp hs
      unfold addSorted
      split_ifs with h
      · rw [compareElements_lt_zero_iff] at h
        refine List.Pairwise.cons ?_ (List.Pairwise.cons hs.1 hs.2)
        intro x hx
        rcases List.mem_cons.mp hx with hxy | hx
        · rw [hxy]; exact le_of_lt h.2
        · exact le_trans (le_of_lt h.2) (hs.1 x hx)
      · rw [compareElements_lt_zero_iff] at h
        push_neg at h
        have hyid : y.id ≠ e.id := hid y (List.mem_cons_self y ys)
        have hyb : y.beat ≤ e.beat := h (fun heq => hyid heq.symm)
        refine List.Pairwise.cons ?_ (ih hs.2 (fun x hx => hid x (List.mem_cons_of_mem y hx)))
        intro x hx
        rcases mem_addSorted.mp hx with hxe | hx
        · rw [hxe]; exact hyb
        · exact hs.1 x hx

theorem addSorted_strict {l : List TimeSignatureEvent} {e : TimeSignatureEvent}
    (hs : StrictStore l) (hf : FreshFor e l) : StrictStore (addSorted l e) := by
  induction l with
  | nil => simp [addSorted, StrictStore]
  | cons y ys ih =>
      replace hs : (∀ b ∈ ys, y.id ≠ b.id ∧ y.beat < b.beat) ∧ StrictStore ys :=
        List.pairwise_cons.mp hs
      have hyf := hf y (List.mem_cons_self y ys)
      unfold addSorted
      split_ifs with h
      · rw [compareElements_lt_zero_iff] at h
        refine List.Pairwise.cons ?_ (List.Pairwise.cons hs.1 hs.2)
        intro x hx
        rcases List.mem_cons.mp hx with hxy | hx
        · rw [hxy]
          exact ⟨fun heq => hyf.1 heq.symm, h.2⟩
        · exact ⟨fun heq => (hf x (List.mem_cons_of_mem y hx)).1 heq.symm,
            lt_trans h.2 (hs.1 x hx).2⟩
      · rw [compareElements_lt_zero_iff] at h
        push_neg at h
        have hyb : y.beat ≤ e.beat := h (fun heq => hyf.1 heq.symm)
        have hyb' : y.beat < e.beat := lt_of_le_of_ne hyb hyf.2
        refine List.Pairwise.cons ?_ (ih hs.2 (fun x hx => hf x (List.mem_cons_of_mem y hx)))
        intro x hx
        rcases mem_addSorted.mp hx with hxe | hx
        · rw [hxe]
          exact ⟨hyf.1, hyb'⟩
        · exact hs.1 x hx

theorem findSorted_none {q : TimeSignatureEvent} :
    ∀ {l : List TimeSignatureEvent},
      (∀ x ∈ l, compareElements q x ≠ 0) → findSorted q l = none
  | [], _ => rfl
  | x :: xs, h => by
      unfold findSorted
      rw [if_neg (h x (List.mem_cons_self x xs)),
        findSorted_none (fun y hy => h y (List.mem_cons_of_mem x hy))]

theorem findSorted_eq_none_iff {q : TimeSignatureEvent} {l : List TimeSignatureEvent} :
    findSorted q l = none ↔ ∀ x ∈ l, compareElements q x ≠ 0 := by
  induction l with
  | nil => simp [findSorted]
  | cons x xs ih =>
      unfold findSorted
      split_ifs with h
      · simp only [reduceCtorEq, false_iff]
        push_neg
        exact ⟨x, List.mem_cons_self x xs, h⟩
      · cases hxs : findSorted q xs with
        | some p => simp only [hxs, reduceCtorEq, false_iff]
                    rw [hxs] at ih
                    push_neg
                    obtain ⟨y, hy, hy0⟩ : ∃ y ∈ xs, compareElements q y = 0 := by
                      by_contra hc
                      push_neg at hc
                      exact absurd (ih.mpr hc) (by simp)
                    exact ⟨y, List.mem_cons_of_mem x hy, hy0⟩
        | none => rw [hxs] at ih
                  simp only [true_iff] at ih
                  simp only [true_iff]
                  intro y hy
                  rcases List.mem_cons.mp hy with rfl | hy
                  · exact h
                  · exact ih y hy

theorem findSorted_addSorted {q e : TimeSignatureEvent}
    (h0 : compareElements q e = 0) :
    ∀ {l : List TimeSignatureEvent},
      (∀ x ∈ l, compareElements q x ≠ 0) → findSorted q (addSorted l e) = some (e, l)
  | [], _ => by simp [addSorted, findSorted, h0]
  | x :: xs, hl => by
      unfold addSorted
      split_ifs with h
      · unfold findSorted
        rw [if_pos h0]
      · unfold findSorted
        rw [if_neg (hl x (List.mem_cons_self x xs)),
          findSorted_addSorted h0 (fun y hy => hl y (List.mem_cons_of_mem x hy))]

theorem findSorted_split {q y : TimeSignatureEvent} :
    ∀ {l r : List TimeSignatureEvent}, findSorted q l = some (y, r) →
      ∃ l₁ l₂, l = l₁ ++ y :: l₂ ∧ r = l₁ ++ l₂ ∧
        (∀ x ∈ l₁, compareElements q x ≠ 0) ∧ compareElements q y = 0
  | [], _, h => by simp [findSorted] at h
  | x :: xs, r, h => by
      unfold findSorted at h
      split_ifs at h with h0
      · simp only [Option.some.injEq, Prod.mk.injEq] at h
        obtain ⟨rfl, rfl⟩ := h
        exact ⟨[], xs, by simp, by simp, by simp, h0⟩
      · cases hxs : findSorted q xs with
        | some p =>
            rw [hxs] at h
            simp only [Option.some.injEq, Prod.mk.injEq] at h
            obtain ⟨rfl, rfl⟩ := h
            obtain ⟨l₁, l₂, he, hr, hne, h0'⟩ :=
              findSorted_split (l := xs) (r := p.2) (by rw [hxs])
            refine ⟨x :: l₁, l₂, by simp [he], by simp [hr], ?_, h0'⟩
            intro z hz
            rcases List.mem_cons.mp hz with rfl | hz
            · exact h0
            · exact hne z hz
        | none => rw [hxs] at h; exact absurd h (by simp)

theorem findSorted_mem_strict {q : TimeSignatureEvent} :
    ∀ {l : List TimeSignatureEvent}, StrictStore l → q ∈ l →
      ∃ rest, findSorted q l = some (q, rest) ∧ addSorted rest q = l ∧
        StrictStore rest ∧ (∀ x, x ∈ rest ↔ x ∈ l ∧ x ≠ q)
  | [], _, hm => absurd hm (by simp)
  | x :: xs, hs, hm => by
      replace hs : (∀ b ∈ xs, x.id ≠ b.id ∧ x.beat < b.beat) ∧ StrictStore xs :=
        List.pairwise_cons.mp hs
      rcases List.mem_cons.mp hm with rfl | hm
      · refine ⟨xs, ?_, ?_, hs.2, ?_⟩
        · unfold findSorted
          rw [if_pos (compareElements_self q)]
        · cases xs with
          | nil => rfl
          | cons y ys =>
              unfold addSorted
              rw [if_pos]
              rw [compareElements_lt_zero_iff]
              exact ⟨(hs.1 y (List.mem_cons_self y ys)).1,
                (hs.1 y (List.mem_cons_self y ys)).2⟩
        · intro z
          constructor
          · intro hz
            exact ⟨List.mem_cons_of_mem q hz,
              fun heq => (hs.1 z hz).1 (by rw [heq])⟩
          · intro ⟨hz, hne⟩
            rcases List.mem_cons.mp hz with rfl | hz
            · exact absurd rfl hne
            · exact hz
      · have hxq := hs.1 q hm
        have hcmp : compareElements q x = 1 := compareElements_pos
          (fun heq => hxq.1 heq.symm) hxq.2
        obtain ⟨rest, hf, ha, hsr, hmem⟩ := findSorted_mem_strict hs.2 hm
        refine ⟨x :: rest, ?_, ?_, ?_, ?_⟩
        · unfold findSorted
          rw [if_neg (by rw [hcmp]; decide), hf]
        · unfold addSorted
          rw [if_neg (by rw [hcmp]; decide), ha]
        · refine List.Pairwise.cons ?_ hsr
          exact fun z hz => hs.1 z (((hmem z).mp hz).1)
        · intro z
          simp only [List.mem_cons, hmem z]
          constructor
          · rintro (rfl | ⟨hz, hne⟩)
            · exact ⟨Or.inl rfl, fun heq => hxq.1 (by rw [heq])⟩
            · exact ⟨Or.inr hz, hne⟩
          · rintro ⟨rfl | hz, hne⟩
            · exact Or.inl rfl
            · exact Or.inr ⟨hz, hne⟩

theorem uniqueIds_of_strict {l : List TimeSignatureEvent} (h : StrictStore l) :
    UniqueIds l :=
  h.imp (fun hab => hab.1)

theorem strict_mem_ne_id {l : List TimeSignatureEvent} (h : StrictStore l)
    {a b : TimeSignatureEvent} (ha : a ∈ l) (hb : b ∈ l) (hne : a ≠ b) :
    a.id ≠ b.id :=
  (uniqueIds_of_strict h).forall (fun _ _ hxy => Ne.symm hxy) ha hb hne

theorem strictStore_beatSorted {l : List TimeSignatureEvent} (h : StrictStore l) :
    BeatSorted l :=
  h.imp (fun hab => le_of_lt hab.2)

theorem foldl_addSorted_perm :
    ∀ (l acc : List TimeSignatureEvent), List.Perm (List.foldl addSorted acc l) (acc ++ l)
  | [], acc => by simp
  | e :: l, acc => by
      simp only [List.foldl_cons]
      exact ((foldl_addSorted_perm l (addSorted acc e)).trans
        (((addSorted_perm acc e).append_right l).trans List.perm_middle.symm))

theorem foldl_addSorted_beatSorted :
    ∀ {l acc : List TimeSignatureEvent}, BeatSorted acc →
      (∀ r ∈ l, ∀ x ∈ acc, x.id ≠ r.id) → UniqueIds l →
      BeatSorted (List.foldl addSorted acc l)
  | [], acc, hacc, _, _ => hacc
  | r :: l, acc, hacc, hfresh, hu => by
      simp only [List.foldl_cons]
      replace hu : (∀ b ∈ l, r.id ≠ b.id) ∧ UniqueIds l := List.pairwise_cons.mp hu
      refine foldl_addSorted_beatSorted
        (addSorted_beatSorted hacc (hfresh r (List.mem_cons_self r l))) ?_ hu.2
      intro r' hr' x hx
      rcases mem_addSorted.mp hx with hxr | hx
      · rw [hxr]; exact hu.1 r' hr'
      · exact hfresh r' (List.mem_cons_of_mem r hr') x hx

theorem sortEvents_perm (l : List TimeSignatureEvent) :
    List.Perm (TimeSignaturesSequence.sortEvents l) l := by
  simpa using foldl_addSorted_perm l []

theorem sortEvents_beatSorted {l : List TimeSignatureEvent} (hu : UniqueIds l) :
    BeatSorted (TimeSignaturesSequence.sortEvents l) :=
  foldl_addSorted_beatSorted (by simp [BeatSorted]) (by simp) hu

theorem foldl_prepend_eq_reverse :
    ∀ (l acc : List TimeSignatureEvent),
      List.foldl (fun xml event => event :: xml) acc l = l.reverse ++ acc
  | [], acc => rfl
  | e :: l, acc => by
      simp only [List.foldl_cons, foldl_prepend_eq_reverse l (e :: acc),
        List.reverse_cons, List.append_assoc, List.singleton_append]

theorem deserializeLoadLoop_midiEvents :
    ∀ (records : List TimeSignatureEvent) (s : SequenceState),
      (TimeSignaturesSequence.deserializeLoadLoop s records).midiEvents =
        s.midiEvents ++ records
  | [], s => by simp [TimeSignaturesSequence.deserializeLoadLoop]
  | r :: rest, s => by
      simp [TimeSignaturesSequence.deserializeLoadLoop,
        deserializeLoadLoop_midiEvents rest]

theorem deserialize_midiEvents (records : List TimeSignatureEvent) :
    (TimeSignaturesSequence.deserialize records).midiEvents =
      TimeSignaturesSequence.sortEvents records := by
  simp [TimeSignaturesSequence.deserialize, deserializeLoadLoop_midiEvents]

theorem insertGroupLoop_notes :
    ∀ (grp : List TimeSignatureEvent) (s : SequenceState),
      (TimeSignaturesSequence.insertGroupLoop s grp).2 = grp.map SeqNote.eventAdded
  | [], _ => rfl
  | e :: grp, s => by
      simp [TimeSignaturesSequence.insertGroupLoop, insertGroupLoop_notes grp]

theorem removeGroupLoop_skip {s : SequenceState} {q : TimeSignatureEvent}
    {grp : List TimeSignatureEvent}
    (h : ∀ x ∈ s.midiEvents, compareElements q x ≠ 0) :
    TimeSignaturesSequence.removeGroupLoop s (q :: grp) =
      TimeSignaturesSequence.removeGroupLoop s grp := by
  simp only [TimeSignaturesSequence.removeGroupLoop, findSorted_none h]

theorem changeGroupLoop_skip {s : SequenceState}
    {p : TimeSignatureEvent × TimeSignatureEvent}
    {ps : List (TimeSignatureEvent × TimeSignatureEvent)}
    (h : ∀ x ∈ s.midiEvents, compareElements p.1 x ≠ 0) :
    TimeSignaturesSequence.changeGroupLoop s (p :: ps) =
      TimeSignaturesSequence.changeGroupLoop s ps := by
  simp only [TimeSignaturesSequence.changeGroupLoop, findSorted_none h]

theorem removeGroupLoop_all_found :
    ∀ {grp : List TimeSignatureEvent} {s : SequenceState},
      StrictStore s.midiEvents → grp.Nodup → (∀ m ∈ grp, m ∈ s.midiEvents) →
      (TimeSignaturesSequence.removeGroupLoop s grp).2 = grp.map SeqNote.eventRemoved
  | [], _, _, _, _ => rfl
  | m :: grp, s, hs, hnd, hmem => by
      obtain ⟨rest, hf, _, hsr, hmemr⟩ :=
        findSorted_mem_strict hs (hmem m (List.mem_cons_self m grp))
      replace hnd : m ∉ grp ∧ grp.Nodup := List.nodup_cons.mp hnd
      have ihnotes := removeGroupLoop_all_found
        (s := { s with midiEvents := rest }) hsr hnd.2 ?_
      · simp only [TimeSignaturesSequence.removeGroupLoop, hf, ihnotes, List.map_cons]
      · intro m' hm'
        exact (hmemr m').mpr ⟨hmem m' (List.mem_cons_of_mem m hm'),
          fun heq => hnd.1 (heq ▸ hm')⟩

/-- Sufficient conditions for a grouped change to find every listed target:
the store satisfies the strict invariant, every `before` is a stored
element whose `after` keeps its id, distinct pairs have distinct targets
and non-colliding `after` beats (also not colliding with other pairs'
target beats), and no `after` beat collides with a stored event that is
not itself one of the targets. -/
abbrev GoodChangeGroup (store : List TimeSignatureEvent)
    (ps : List (TimeSignatureEvent × TimeSignatureEvent)) : Prop :=
  StrictStore store ∧
  (∀ p ∈ ps, p.1 ∈ store ∧ p.2.id = p.1.id) ∧
  ps.Pairwise (fun p q => p.1 ≠ q.1 ∧ p.2.beat ≠ q.2.beat ∧ p.2.beat ≠ q.1.beat) ∧
  (∀ p ∈ ps, ∀ x ∈ store, (∀ r ∈ ps, x ≠ r.1) → p.2.beat ≠ x.beat)

theorem changeGroupLoop_good :
    ∀ {ps : List (TimeSignatureEvent × TimeSignatureEvent)} {s : SequenceState},
      GoodChangeGroup s.midiEvents ps →
      (TimeSignaturesSequence.changeGroupLoop s ps).2 =
        ps.map (fun p => SeqNote.eventChanged p.1 (p.1.applyChanges p.2))
  | [], _, _ => rfl
  | p :: ps, s, hg => by
      obtain ⟨hs, htar, hpw, hfb⟩ := hg
      obtain ⟨hp1, hp2⟩ := htar p (List.mem_cons_self p ps)
      obtain ⟨rest, hf, _, hsr, hmemr⟩ := findSorted_mem_strict hs hp1
      replace hpw : (∀ q ∈ ps, p.1 ≠ q.1 ∧ p.2.beat ≠ q.2.beat ∧ p.2.beat ≠ q.1.beat) ∧
          ps.Pairwise (fun p q => p.1 ≠ q.1 ∧ p.2.beat ≠ q.2.beat ∧ p.2.beat ≠ q.1.beat) :=
        List.pairwise_cons.mp hpw
      have hfresh : FreshFor (p.1.applyChanges p.2) rest := by
        intro x hx
        obtain ⟨hxs, hxp⟩ := (hmemr x).mp hx
        refine ⟨?_, ?_⟩
        · simpa using strict_mem_ne_id hs hxs hp1 hxp
        · rw [applyChanges_beat]
          by_cases hxtar : ∀ r ∈ ps, x ≠ r.1
          · refine Ne.symm (hfb p (List.mem_cons_self p ps) x hxs ?_)
            intro r hr
            rcases List.mem_cons.mp hr with hrp | hr
            · rw [hrp]; exact hxp
            · exact hxtar r hr
          · push_neg at hxtar
            obtain ⟨r, hr, hxr⟩ := hxtar
            rw [hxr]
            exact Ne.symm ((hpw.1 r hr).2.2)
      have hgood : GoodChangeGroup (addSorted rest (p.1.applyChanges p.2)) ps := by
        refine ⟨addSorted_strict hsr hfresh, ?_, hpw.2, ?_⟩
        · intro q hq
          obtain ⟨hq1, hq2⟩ := htar q (List.mem_cons_of_mem p hq)
          exact ⟨mem_addSorted.mpr
            (Or.inr ((hmemr q.1).mpr ⟨hq1, fun heq => (hpw.1 q hq).1 heq.symm⟩)), hq2⟩
        · intro q hq x hx hxtar
          rcases mem_addSorted.mp hx with hxc | hx
          · rw [hxc, applyChanges_beat]
            exact Ne.symm ((hpw.1 q hq).2.1)
          · obtain ⟨hxs, hxp⟩ := (hmemr x).mp hx
            refine hfb q (List.mem_cons_of_mem p hq) x hxs ?_
            intro r hr
            rcases List.mem_cons.mp hr with hrp | hr
            · rw [hrp]; exact hxp
            · exact hxtar r hr
      have ihnotes := changeGroupLoop_good
        (s := { s with midiEvents := addSorted rest (p.1.applyChanges p.2) }) hgood
      simp only [TimeSignaturesSequence.changeGroupLoop, hf, ihnotes, List.map_cons]

theorem findSorted_rest_sublist {q y : TimeSignatureEvent}
    {l r : List TimeSignatureEvent}
    (h : findSorted q l = some (y, r)) : r.Sublist l := by
  obtain ⟨l₁, l₂, he, hr, -, -⟩ := findSorted_split h
  rw [he, hr]
  exact List.Sublist.append_left (List.sublist_cons_self y l₂) l₁

theorem findSorted_found_mem {q y : TimeSignatureEvent}
    {l r : List TimeSignatureEvent}
    (h : findSorted q l = some (y, r)) : y ∈ l := by
  obtain ⟨l₁, l₂, he, -, -, -⟩ := findSorted_split h
  rw [he]
  exact List.mem_append.mpr (Or.inr (List.mem_cons_self y l₂))

theorem findSorted_rest_id_ne {q y : TimeSignatureEvent}
    {l r : List TimeSignatureEvent} (hu : UniqueIds l)
    (h : findSorted q l = some (y, r)) : ∀ x ∈ r, x.id ≠ y.id := by
  obtain ⟨l₁, l₂, he, hr, -, -⟩ := findSorted_split h
  rw [he] at hu
  rw [hr]
  obtain ⟨hu1, hu2, hu3⟩ := List.pairwise_append.mp hu
  intro x hx
  rcases List.mem_append.mp hx with hx | hx
  · exact hu3 x hx y (List.mem_cons_self y l₂)
  · exact Ne.symm ((List.pairwise_cons.mp hu2).1 x hx)

theorem applyChanges_roundTrip (a c : TimeSignatureEvent) :
    (a.applyChanges c).applyChanges a = a := rfl

/-- C5: the clip comparator returns 0 whenever the two ids match,
regardless of the beat positions; for distinct ids it returns the sign of
the beat difference, so clips with distinct ids and equal beats also
compare as equal — the id never determines sort order. -/
theorem claim_C5 (a b : Clip) :
    (a.id = b.id → Clip.compareElements a b = 0) ∧
    (a.id ≠ b.id → a.startBeat < b.startBeat → Clip.compareElements a b = -1) ∧
    (a.id ≠ b.id → b.startBeat < a.startBeat → Clip.compareElements a b = 1) ∧
    (a.startBeat = b.startBeat → Clip.compareElements a b = 0) := by
  refine ⟨?_, ?_, ?_, ?_⟩
  · intro h
    simp [Clip.compareElements, h]
  · intro h1 h2
    unfold Clip.compareElements
    rw [if_neg h1, if_neg (asymm h2), if_pos h2]
  · intro h1 h2
    unfold Clip.compareElements
    rw [if_neg h1, if_pos h2]
  · intro h
    unfold Clip.compareElements
    split_ifs with h1 h2 h3
    · rfl
    · exact absurd h (ne_of_gt h2)
    · exact absurd h (ne_of_lt h3)
    · rfl

theorem claim_C5_witness :
    Clip.compareElements ⟨"a", 1⟩ ⟨"b", 2⟩ = -1 ∧
    Clip.compareElements ⟨"a", 3⟩ ⟨"a", 7⟩ = 0 ∧
    Clip.compareElements ⟨"a", 2⟩ ⟨"b", 1⟩ = 1 ∧
    Clip.compareElements ⟨"a", 5⟩ ⟨"b", 5⟩ = 0 :=
  ⟨(claim_C5 _ _).2.1 (by decide) (by decide),
   (claim_C5 _ _).1 rfl,
   (claim_C5 _ _).2.2.1 (by decide) (by decide),
   (claim_C5 _ _).2.2.2 rfl⟩

/-- C9 (amended): construction from a beat value and `withDeltaBeat`
quantize the stored start beat through `roundBeat`, but `applyChanges`
copies the other clip's start beat verbatim and `deserialize` stores the
decoded attribute (or the fallback) verbatim, without rounding. -/
theorem claim_C9_amended (newId : String) (beatVal deltaPosition v : Rat)
    (c other : Clip) (xml : ClipRecord) :
    ((Clip.create newId beatVal).startBeat = roundBeat beatVal) ∧
    ((c.withDeltaBeat deltaPosition).startBeat = roundBeat (c.startBeat + deltaPosition)) ∧
    ((c.applyChanges other).startBeat = other.startBeat) ∧
    (xml.start = some v → (c.deserialize xml).startBeat = v) ∧
    (xml.start = none → (c.deserialize xml).startBeat = c.startBeat) := by
  refine ⟨rfl, rfl, rfl, ?_, ?_⟩
  · intro h
    simp [Clip.deserialize, h]
  · intro h
    simp [Clip.deserialize, h]

theorem claim_C9_amended_witness :
    (Clip.deserialize ⟨"c", 0⟩ ⟨some (1/3), none⟩).startBeat = 1/3 ∧
    (Clip.deserialize ⟨"c", 2⟩ ⟨none, none⟩).startBeat = 2 :=
  ⟨(claim_C9_amended "c" 0 0 (1/3) ⟨"c", 0⟩ ⟨"c", 0⟩ ⟨some (1/3), none⟩).2.2.2.1 rfl,
   (claim_C9_amended "c" 0 0 0 ⟨"c", 2⟩ ⟨"c", 2⟩ ⟨none, none⟩).2.2.2.2 rfl⟩

/-- C9 counterexample: deserializing a clip record whose `start`
attribute lies off the quantization grid stores the value verbatim, so
the stored start beat differs from `roundBeat` of the intended value —
`deserialize` (and hence `withParameters`/`applyChanges` fed from it)
does not round, refuting the claim that every mutation stores a rounded
beat. -/
theorem claim_C9_counterexample :
    (Clip.deserialize ⟨"c", 0⟩ ⟨some (1/3), none⟩).startBeat ≠ roundBeat (1/3) := by
  have h5 : roundBeat (1/3) = 5/16 := by
    unfold roundBeat
    norm_num
  rw [h5]
  simp only [Clip.deserialize, Option.getD_some]
  norm_num

/-- C3: serializing a sequence emits the event records in reverse of the
internal iteration order (via prepend), and deserializing the serialized
form into an empty sequence reproduces the same multiset of
(id, beat, payload) tuples. -/
theorem claim_C3 (s : SequenceState) :
    TimeSignaturesSequence.serialize s = s.midiEvents.reverse ∧
    Multiset.ofList (TimeSignaturesSequence.deserialize
        (TimeSignaturesSequence.serialize s)).midiEvents =
      Multiset.ofList s.midiEvents := by
  have hser : TimeSignaturesSequence.serialize s = s.midiEvents.reverse := by
    unfold TimeSignaturesSequence.serialize
    rw [foldl_prepend_eq_reverse]
    simp
  refine ⟨hser, ?_⟩
  rw [deserialize_midiEvents, hser]
  exact Multiset.coe_eq_coe.mpr ((sortEvents_perm _).trans (List.reverse_perm _))

/-- C7: during import, an event whose id is already registered raises the
debug assertion (modelled as the returned flag), is skipped leaving the
sequence state unchanged, and the import loop continues with the
remaining events. -/
theorem claim_C7 (s : SequenceState) (e : TimeSignatureEvent)
    (rest : List TimeSignatureEvent) (h : e.id ∈ s.usedEventIds) :
    (TimeSignaturesSequence.silentImport s e).1 = s ∧
    (TimeSignaturesSequence.silentImport s e).2.2 = true ∧
    TimeSignaturesSequence.silentImportAll s (e :: rest) =
      TimeSignaturesSequence.silentImportAll s rest := by
  refine ⟨?_, ?_, ?_⟩
  · simp [TimeSignaturesSequence.silentImport, h]
  · simp [TimeSignaturesSequence.silentImport, h]
  · simp [TimeSignaturesSequence.silentImportAll, TimeSignaturesSequence.silentImport, h]

theorem claim_C7_witness :
    (TimeSignaturesSequence.silentImport ⟨[⟨"a", 1, 4, 4⟩], ["a"]⟩ ⟨"a", 2, 3, 4⟩).1 =
      (⟨[⟨"a", 1, 4, 4⟩], ["a"]⟩ : SequenceState) ∧
    (TimeSignaturesSequence.silentImport ⟨[⟨"a", 1, 4, 4⟩], ["a"]⟩ ⟨"a", 2, 3, 4⟩).2.2 = true ∧
    TimeSignaturesSequence.silentImportAll ⟨[⟨"a", 1, 4, 4⟩], ["a"]⟩
        [⟨"a", 2, 3, 4⟩, ⟨"b", 3, 4, 4⟩] =
      TimeSignaturesSequence.silentImportAll ⟨[⟨"a", 1, 4, 4⟩], ["a"]⟩ [⟨"b", 3, 4, 4⟩] :=
  claim_C7 ⟨[⟨"a", 1, 4, 4⟩], ["a"]⟩ ⟨"a", 2, 3, 4⟩ [⟨"b", 3, 4, 4⟩] (by decide)

/-- C4 (amended): the non-undoable insert stores a copy of the event at
its sorted position (membership grows by exactly the event; sortedness is
preserved when the store is sorted and the id fresh), fires exactly one
event-added notification followed by the user-visible beat-range update —
but it does not register the event's id: the used-id set is left
untouched (only the import and deserialize paths maintain it). -/
theorem claim_C4_amended (s : SequenceState) (eventParams : TimeSignatureEvent) :
    (∀ x, x ∈ (TimeSignaturesSequence.insert s eventParams).1.midiEvents ↔
      x = eventParams ∨ x ∈ s.midiEvents) ∧
    (BeatSorted s.midiEvents → (∀ x ∈ s.midiEvents, x.id ≠ eventParams.id) →
      BeatSorted (TimeSignaturesSequence.insert s eventParams).1.midiEvents) ∧
    ((TimeSignaturesSequence.insert s eventParams).2 =
      [SeqNote.eventAdded eventParams, SeqNote.beatRangeUpdated true]) ∧
    ((TimeSignaturesSequence.insert s eventParams).1.usedEventIds = s.usedEventIds) := by
  refine ⟨fun x => mem_addSorted, ?_, rfl, rfl⟩
  intro h1 h2
  exact addSorted_beatSorted h1 h2

theorem claim_C4_amended_witness :
    BeatSorted (TimeSignaturesSequence.insert
      ⟨[⟨"a", 1, 4, 4⟩], []⟩ ⟨"b", 2, 3, 4⟩).1.midiEvents ∧
    (TimeSignaturesSequence.insert
      ⟨[⟨"a", 1, 4, 4⟩], []⟩ ⟨"b", 2, 3, 4⟩).1.usedEventIds = [] :=
  ⟨(claim_C4_amended ⟨[⟨"a", 1, 4, 4⟩], []⟩ ⟨"b", 2, 3, 4⟩).2.1 (by decide) (by decide),
   (claim_C4_amended ⟨[⟨"a", 1, 4, 4⟩], []⟩ ⟨"b", 2, 3, 4⟩).2.2.2⟩

/-- C4 counterexample: after a non-undoable insert into an empty
sequence the event is stored but its id is not registered — the used-id
set stays empty, refuting "registers its id in the sequence's used-id
set (which mirrors the event store)". -/
theorem claim_C4_counterexample :
    (⟨"a", 1, 4, 4⟩ : TimeSignatureEvent) ∈
      (TimeSignaturesSequence.insert ⟨[], []⟩ ⟨"a", 1, 4, 4⟩).1.midiEvents ∧
    (TimeSignaturesSequence.insert ⟨[], []⟩ ⟨"a", 1, 4, 4⟩).1.usedEventIds = [] := by
  decide

/-- C2: every mutation preserves the non-decreasing-beat sort invariant,
under the id-uniqueness discipline the spec documents: a fresh id for
insert, pairwise-distinct stored ids for change, the used-id set
mirroring the store for silentImport, and pairwise-distinct record ids
for deserialize (remove needs no side condition). -/
theorem claim_C2 (s : SequenceState) (e oldParams newParams q : TimeSignatureEvent)
    (records : List TimeSignatureEvent) :
    (BeatSorted s.midiEvents → (∀ x ∈ s.midiEvents, x.id ≠ e.id) →
      BeatSorted (TimeSignaturesSequence.insert s e).1.midiEvents) ∧
    (BeatSorted s.midiEvents →
      BeatSorted (TimeSignaturesSequence.remove s q).1.midiEvents) ∧
    (BeatSorted s.midiEvents → UniqueIds s.midiEvents →
      BeatSorted (TimeSignaturesSequence.change s oldParams newParams).1.midiEvents) ∧
    (BeatSorted s.midiEvents → (∀ x ∈ s.midiEvents, x.id ∈ s.usedEventIds) →
      BeatSorted (TimeSignaturesSequence.silentImport s e).1.midiEvents) ∧
    (UniqueIds records →
      BeatSorted (TimeSignaturesSequence.deserialize records).midiEvents) := by
  refine ⟨?_, ?_, ?_, ?_, ?_⟩
  · intro h1 h2
    exact addSorted_beatSorted h1 h2
  · intro h1
    cases hf : findSorted q s.midiEvents with
    | none => simpa [TimeSignaturesSequence.remove, hf] using h1
    | some p =>
        simp only [TimeSignaturesSequence.remove, hf]
        exact List.Pairwise.sublist (findSorted_rest_sublist (y := p.1) (r := p.2) (by rw [hf])) h1
  · intro h1 h2
    cases hf : findSorted oldParams s.midiEvents with
    | none => simpa [TimeSignaturesSequence.change, hf] using h1
    | some p =>
        simp only [TimeSignaturesSequence.change, hf]
        refine addSorted_beatSorted
          (List.Pairwise.sublist
            (findSorted_rest_sublist (y := p.1) (r := p.2) (by rw [hf])) h1) ?_
        intro x hx
        rw [applyChanges_id]
        exact findSorted_rest_id_ne h2 (y := p.1) (r := p.2) (by rw [hf]) x hx
  · intro h1 h2
    unfold TimeSignaturesSequence.silentImport
    split_ifs with h
    · exact h1
    · refine addSorted_beatSorted h1 ?_
      intro x hx heq
      exact h (heq ▸ h2 x hx)
  · intro h1
    rw [deserialize_midiEvents]
    exact sortEvents_beatSorted h1

theorem claim_C2_witness :
    BeatSorted (TimeSignaturesSequence.insert
      ⟨[⟨"a", 1, 4, 4⟩, ⟨"b", 2, 3, 4⟩], ["a", "b"]⟩ ⟨"c", 3, 5, 8⟩).1.midiEvents ∧
    BeatSorted (TimeSignaturesSequence.remove
      ⟨[⟨"a", 1, 4, 4⟩, ⟨"b", 2, 3, 4⟩], ["a", "b"]⟩ ⟨"b", 2, 3, 4⟩).1.midiEvents ∧
    BeatSorted (TimeSignaturesSequence.change
      ⟨[⟨"a", 1, 4, 4⟩, ⟨"b", 2, 3, 4⟩], ["a", "b"]⟩
      ⟨"a", 1, 4, 4⟩ ⟨"a", 3, 6, 8⟩).1.midiEvents ∧
    BeatSorted (TimeSignaturesSequence.silentImport
      ⟨[⟨"a", 1, 4, 4⟩, ⟨"b", 2, 3, 4⟩], ["a", "b"]⟩ ⟨"c", 3, 5, 8⟩).1.midiEvents ∧
    BeatSorted (TimeSignaturesSequence.deserialize
      [⟨"b", 2, 3, 4⟩, ⟨"a", 1, 4, 4⟩]).midiEvents :=
  ⟨(claim_C2 ⟨[⟨"a", 1, 4, 4⟩, ⟨"b", 2, 3, 4⟩], ["a", "b"]⟩
      ⟨"c", 3, 5, 8⟩ ⟨"a", 1, 4, 4⟩ ⟨"a", 3, 6, 8⟩ ⟨"b", 2, 3, 4⟩ []).1
      (by decide) (by decide),
   (claim_C2 ⟨[⟨"a", 1, 4, 4⟩, ⟨"b", 2, 3, 4⟩], ["a", "b"]⟩
      ⟨"c", 3, 5, 8⟩ ⟨"a", 1, 4, 4⟩ ⟨"a", 3, 6, 8⟩ ⟨"b", 2, 3, 4⟩ []).2.1
      (by decide),
   (claim_C2 ⟨[⟨"a", 1, 4, 4⟩, ⟨"b", 2, 3, 4⟩], ["a", "b"]⟩
      ⟨"c", 3, 5, 8⟩ ⟨"a", 1, 4, 4⟩ ⟨"a", 3, 6, 8⟩ ⟨"b", 2, 3, 4⟩ []).2.2.1
      (by decide) (by decide),
   (claim_C2 ⟨[⟨"a", 1, 4, 4⟩, ⟨"b", 2, 3, 4⟩], ["a", "b"]⟩
      ⟨"c", 3, 5, 8⟩ ⟨"a", 1, 4, 4⟩ ⟨"a", 3, 6, 8⟩ ⟨"b", 2, 3, 4⟩ []).2.2.2.1
      (by decide) (by decide),
   (claim_C2 ⟨[⟨"a", 1, 4, 4⟩, ⟨"b", 2, 3, 4⟩], ["a", "b"]⟩
      ⟨"c", 3, 5, 8⟩ ⟨"a", 1, 4, 4⟩ ⟨"a", 3, 6, 8⟩ ⟨"b", 2, 3, 4⟩
      [⟨"b", 2, 3, 4⟩, ⟨"a", 1, 4, 4⟩]).2.2.2.2 (by decide)⟩

/-- C10: the non-undoable grouped operations always return true, for
every input list; grouped remove and grouped change silently skip any
member with no comparator match in the current store (the loop step for
such a member is a no-op), so the caller cannot detect skipped members
from the return value. -/
theorem claim_C10 (s : SequenceState) (grp groupBefore groupAfter : List TimeSignatureEvent)
    (q : TimeSignatureEvent) (p : TimeSignatureEvent × TimeSignatureEvent)
    (ps : List (TimeSignatureEvent × TimeSignatureEvent)) :
    ((TimeSignaturesSequence.insertGroup s grp).2.2 = true) ∧
    ((TimeSignaturesSequence.removeGroup s grp).2.2 = true) ∧
    ((TimeSignaturesSequence.changeGroup s groupBefore groupAfter).2.2 = true) ∧
    ((∀ x ∈ s.midiEvents, compareElements q x ≠ 0) →
      TimeSignaturesSequence.removeGroupLoop s (q :: grp) =
        TimeSignaturesSequence.removeGroupLoop s grp) ∧
    ((∀ x ∈ s.midiEvents, compareElements p.1 x ≠ 0) →
      TimeSignaturesSequence.changeGroupLoop s (p :: ps) =
        TimeSignaturesSequence.changeGroupLoop s ps) :=
  ⟨rfl, rfl, rfl, removeGroupLoop_skip, changeGroupLoop_skip⟩

theorem claim_C10_witness :
    (TimeSignaturesSequence.removeGroup ⟨[⟨"a", 1, 4, 4⟩], ["a"]⟩
      [⟨"b", 2, 3, 4⟩]).2.2 = true ∧
    TimeSignaturesSequence.removeGroupLoop ⟨[⟨"a", 1, 4, 4⟩], ["a"]⟩
        [⟨"b", 2, 3, 4⟩] =
      TimeSignaturesSequence.removeGroupLoop ⟨[⟨"a", 1, 4, 4⟩], ["a"]⟩ [] ∧
    TimeSignaturesSequence.changeGroupLoop ⟨[⟨"a", 1, 4, 4⟩], ["a"]⟩
        [(⟨"b", 2, 3, 4⟩, ⟨"b", 3, 3, 4⟩)] =
      TimeSignaturesSequence.changeGroupLoop ⟨[⟨"a", 1, 4, 4⟩], ["a"]⟩ [] :=
  ⟨(claim_C10 ⟨[⟨"a", 1, 4, 4⟩], ["a"]⟩ [⟨"b", 2, 3, 4⟩] [] []
      ⟨"b", 2, 3, 4⟩ (⟨"b", 2, 3, 4⟩, ⟨"b", 3, 3, 4⟩) []).2.1,
   (claim_C10 ⟨[⟨"a", 1, 4, 4⟩], ["a"]⟩ [] [] []
      ⟨"b", 2, 3, 4⟩ (⟨"b", 2, 3, 4⟩, ⟨"b", 3, 3, 4⟩) []).2.2.2.1 (by decide),
   (claim_C10 ⟨[⟨"a", 1, 4, 4⟩], ["a"]⟩ [] [] []
      ⟨"b", 2, 3, 4⟩ (⟨"b", 2, 3, 4⟩, ⟨"b", 3, 3, 4⟩) []).2.2.2.2 (by decide)⟩

/-- C6 (amended): the non-undoable remove returns true iff some stored
event compares equal to the query under the comparator — same id, or
same beat with a different id — not iff the queried id is present; when
an event is found, the removed-event notification (carrying the stored
event, which is still a member of the pre-removal store) precedes the
beat-range update and the post-removal notification, and the found event
is removed; when nothing compares equal the call is a no-op returning
false. -/
theorem claim_C6_amended (s : SequenceState) (signature : TimeSignatureEvent) :
    ((TimeSignaturesSequence.remove s signature).2.2 = true ↔
      ∃ x ∈ s.midiEvents, compareElements signature x = 0) ∧
    (∀ found rest, findSorted signature s.midiEvents = some (found, rest) →
      (TimeSignaturesSequence.remove s signature).2.1 =
        [SeqNote.eventRemoved found, SeqNote.beatRangeUpdated true,
         SeqNote.eventRemovedPostAction] ∧
      found ∈ s.midiEvents ∧
      (TimeSignaturesSequence.remove s signature).1.midiEvents = rest) ∧
    (findSorted signature s.midiEvents = none →
      TimeSignaturesSequence.remove s signature = (s, [], false)) := by
  refine ⟨?_, ?_, ?_⟩
  · cases hf : findSorted signature s.midiEvents with
    | none =>
        simp only [TimeSignaturesSequence.remove, hf]
        constructor
        · intro h
          exact absurd h (by decide)
        · intro ⟨x, hx, h0⟩
          exact absurd h0 (findSorted_eq_none_iff.mp hf x hx)
    | some p =>
        simp only [TimeSignaturesSequence.remove, hf]
        constructor
        · intro _
          obtain ⟨l₁, l₂, he, -, -, h0⟩ :=
            findSorted_split (y := p.1) (r := p.2) (by rw [hf])
          refine ⟨p.1, ?_, h0⟩
          rw [he]
          exact List.mem_append.mpr (Or.inr (List.mem_cons_self p.1 l₂))
        · intro _
          trivial
  · intro found rest hf
    simp only [TimeSignaturesSequence.remove, hf]
    exact ⟨trivial, findSorted_found_mem hf, trivial⟩
  · intro hf
    simp only [TimeSignaturesSequence.remove, hf]

/-- C6 counterexample: removing with parameters whose id is absent but
whose beat coincides with a stored event of a different id returns true
and removes that other event — the return value is not "id found", and
removal can hit an event whose id differs from the query. -/
theorem claim_C6_counterexample :
    (TimeSignaturesSequence.remove ⟨[⟨"a", 1, 4, 4⟩], []⟩ ⟨"b", 1, 3, 4⟩).2.2 = true ∧
    (TimeSignaturesSequence.remove ⟨[⟨"a", 1, 4, 4⟩], []⟩ ⟨"b", 1, 3, 4⟩).1.midiEvents = [] ∧
    (⟨"a", 1, 4, 4⟩ : TimeSignatureEvent).id ≠ "b" := by
  decide

theorem claim_C6_amended_witness :
    ((TimeSignaturesSequence.remove ⟨[⟨"a", 1, 4, 4⟩], []⟩ ⟨"a", 1, 4, 4⟩).2.1 =
      [SeqNote.eventRemoved ⟨"a", 1, 4, 4⟩, SeqNote.beatRangeUpdated true,
       SeqNote.eventRemovedPostAction]) ∧
    (TimeSignaturesSequence.remove ⟨[⟨"a", 1, 4, 4⟩], []⟩ ⟨"b", 2, 3, 4⟩ =
      (⟨[⟨"a", 1, 4, 4⟩], []⟩, [], false)) :=
  ⟨((claim_C6_amended ⟨[⟨"a", 1, 4, 4⟩], []⟩ ⟨"a", 1, 4, 4⟩).2.1
      ⟨"a", 1, 4, 4⟩ [] (by decide)).1,
   (claim_C6_amended ⟨[⟨"a", 1, 4, 4⟩], []⟩ ⟨"b", 2, 3, 4⟩).2.2 (by decide)⟩

/-- C8 (amended): each grouped non-undoable operation fires its per-event
notifications followed by exactly one beat-range update (plus, for the
grouped remove, exactly one post-removal notification at the very end);
insertGroup fires one added-notification per member unconditionally,
while removeGroup and changeGroup fire one per found member — exactly
one per member when every member is present (for changeGroup: distinct
targets with non-colliding after-beats). -/
theorem claim_C8_amended (s : SequenceState)
    (grp groupBefore groupAfter : List TimeSignatureEvent) :
    ((TimeSignaturesSequence.insertGroup s grp).2.1 =
      grp.map SeqNote.eventAdded ++ [SeqNote.beatRangeUpdated true]) ∧
    (StrictStore s.midiEvents → grp.Nodup → (∀ m ∈ grp, m ∈ s.midiEvents) →
      (TimeSignaturesSequence.removeGroup s grp).2.1 =
        grp.map SeqNote.eventRemoved ++
          [SeqNote.beatRangeUpdated true, SeqNote.eventRemovedPostAction]) ∧
    (GoodChangeGroup s.midiEvents (groupBefore.zip groupAfter) →
      (TimeSignaturesSequence.changeGroup s groupBefore groupAfter).2.1 =
        (groupBefore.zip groupAfter).map
          (fun p => SeqNote.eventChanged p.1 (p.1.applyChanges p.2)) ++
          [SeqNote.beatRangeUpdated true]) := by
  refine ⟨?_, ?_, ?_⟩
  · simp only [TimeSignaturesSequence.insertGroup, insertGroupLoop_notes]
  · intro h1 h2 h3
    simp only [TimeSignaturesSequence.removeGroup, removeGroupLoop_all_found h1 h2 h3]
  · intro hg
    simp only [TimeSignaturesSequence.changeGroup, changeGroupLoop_good hg]

theorem claim_C8_amended_witness :
    (TimeSignaturesSequence.removeGroup ⟨[⟨"a", 1, 4, 4⟩, ⟨"b", 2, 3, 4⟩], []⟩
      [⟨"a", 1, 4, 4⟩, ⟨"b", 2, 3, 4⟩]).2.1 =
      [SeqNote.eventRemoved ⟨"a", 1, 4, 4⟩, SeqNote.eventRemoved ⟨"b", 2, 3, 4⟩,
       SeqNote.beatRangeUpdated true, SeqNote.eventRemovedPostAction] ∧
    (TimeSignaturesSequence.changeGroup ⟨[⟨"a", 1, 4, 4⟩, ⟨"b", 2, 3, 4⟩], []⟩
      [⟨"a", 1, 4, 4⟩] [⟨"a", 1, 6, 8⟩]).2.1 =
      [SeqNote.eventChanged ⟨"a", 1, 4, 4⟩ ⟨"a", 1, 6, 8⟩,
       SeqNote.beatRangeUpdated true] :=
  ⟨(claim_C8_amended ⟨[⟨"a", 1, 4, 4⟩, ⟨"b", 2, 3, 4⟩], []⟩
      [⟨"a", 1, 4, 4⟩, ⟨"b", 2, 3, 4⟩] [] []).2.1
      (by decide) (by decide) (by decide),
   (claim_C8_amended ⟨[⟨"a", 1, 4, 4⟩, ⟨"b", 2, 3, 4⟩], []⟩
      [] [⟨"a", 1, 4, 4⟩] [⟨"a", 1, 6, 8⟩]).2.2 (by decide)⟩

/-- C8 counterexample: the grouped remove on an empty store with a
one-member list fires no per-event notification at all — only the single
beat-range update and the post-removal notification — refuting "one
per-event notification for each member of the list" for every input. -/
theorem claim_C8_counterexample :
    (TimeSignaturesSequence.removeGroup ⟨[], []⟩ [⟨"a", 1, 4, 4⟩]).2.1 =
      [SeqNote.beatRangeUpdated true, SeqNote.eventRemovedPostAction] ∧
    (TimeSignaturesSequence.removeGroup ⟨[], []⟩ [⟨"a", 1, 4, 4⟩]).2.1 ≠
      [⟨"a", 1, 4, 4⟩].map SeqNote.eventRemoved ++
        [SeqNote.beatRangeUpdated true, SeqNote.eventRemovedPostAction] := by
  decide

/-- C1 (amended): over a store satisfying the strict invariant (unique
ids, strictly increasing beats), the modelled action triplet's perform
and undo are exact inverses provided the touched beat position is not
shared: Insert round-trips when the inserted event's id and beat are
fresh; Remove round-trips for any stored event; Change round-trips when
the before-event is stored, the after-parameters keep its id, and the
after-beat does not collide with any other stored event's beat.  Without
the freshness proviso the round-trip fails (see the counterexample), so
this is the claim weakened exactly by the beat-collision condition. -/
theorem claim_C1_amended (s : SequenceState)
    (e eventBefore eventAfter : TimeSignatureEvent)
    (hs : StrictStore s.midiEvents) :
    (FreshFor e s.midiEvents →
      insertActionUndo (insertActionPerform s e) e = s) ∧
    (e ∈ s.midiEvents →
      removeActionUndo (removeActionPerform s e) e = s) ∧
    (eventBefore ∈ s.midiEvents → eventAfter.id = eventBefore.id →
      (∀ x ∈ s.midiEvents, x ≠ eventBefore → x.beat ≠ eventAfter.beat) →
      changeActionUndo (changeActionPerform s eventBefore eventAfter)
        eventBefore eventAfter = s) := by
  obtain ⟨mid, used⟩ := s
  refine ⟨?_, ?_, ?_⟩
  · intro hf
    have hfind : findSorted e (addSorted mid e) = some (e, mid) :=
      findSorted_addSorted (compareElements_self e)
        (fun x hx => compareElements_ne_zero
          (Ne.symm (hf x hx).1) (Ne.symm (hf x hx).2))
    simp only [insertActionUndo, insertActionPerform, TimeSignaturesSequence.insert,
      TimeSignaturesSequence.remove, hfind]
  · intro hm
    obtain ⟨rest, hfind, ha, -, -⟩ := findSorted_mem_strict hs hm
    simp only [removeActionUndo, removeActionPerform, TimeSignaturesSequence.remove,
      TimeSignaturesSequence.insert, hfind, ha]
  · intro hmb hid hbeats
    obtain ⟨rest, hfind, ha, hsr, hmem⟩ := findSorted_mem_strict hs hmb
    have hfind2 : findSorted eventAfter
        (addSorted rest (eventBefore.applyChanges eventAfter)) =
        some (eventBefore.applyChanges eventAfter, rest) := by
      refine findSorted_addSorted (compareElements_of_id_eq (by rw [applyChanges_id, hid])) ?_
      intro x hx
      obtain ⟨hxs, hxb⟩ := (hmem x).mp hx
      refine compareElements_ne_zero ?_ (Ne.symm (hbeats x hxs hxb))
      rw [hid]
      exact Ne.symm (strict_mem_ne_id hs hxs hmb hxb)
    simp only [changeActionUndo, changeActionPerform, TimeSignaturesSequence.change,
      hfind, hfind2, applyChanges_roundTrip, ha]

theorem claim_C1_amended_witness :
    insertActionUndo (insertActionPerform
        ⟨[⟨"a", 1, 4, 4⟩, ⟨"b", 3, 3, 4⟩], []⟩ ⟨"c", 2, 5, 8⟩) ⟨"c", 2, 5, 8⟩ =
      (⟨[⟨"a", 1, 4, 4⟩, ⟨"b", 3, 3, 4⟩], []⟩ : SequenceState) ∧
    removeActionUndo (removeActionPerform
        ⟨[⟨"a", 1, 4, 4⟩, ⟨"b", 3, 3, 4⟩], []⟩ ⟨"a", 1, 4, 4⟩) ⟨"a", 1, 4, 4⟩ =
      (⟨[⟨"a", 1, 4, 4⟩, ⟨"b", 3, 3, 4⟩], []⟩ : SequenceState) ∧
    changeActionUndo (changeActionPerform
        ⟨[⟨"a", 1, 4, 4⟩, ⟨"b", 3, 3, 4⟩], []⟩ ⟨"a", 1, 4, 4⟩ ⟨"a", 5, 6, 8⟩)
        ⟨"a", 1, 4, 4⟩ ⟨"a", 5, 6, 8⟩ =
      (⟨[⟨"a", 1, 4, 4⟩, ⟨"b", 3, 3, 4⟩], []⟩ : SequenceState) :=
  ⟨(claim_C1_amended ⟨[⟨"a", 1, 4, 4⟩, ⟨"b", 3, 3, 4⟩], []⟩
      ⟨"c", 2, 5, 8⟩ ⟨"a", 1, 4, 4⟩ ⟨"a", 5, 6, 8⟩ (by decide)).1 (by decide),
   (claim_C1_amended ⟨[⟨"a", 1, 4, 4⟩, ⟨"b", 3, 3, 4⟩], []⟩
      ⟨"a", 1, 4, 4⟩ ⟨"a", 1, 4, 4⟩ ⟨"a", 5, 6, 8⟩ (by decide)).2.1 (by decide),
   (claim_C1_amended ⟨[⟨"a", 1, 4, 4⟩, ⟨"b", 3, 3, 4⟩], []⟩
      ⟨"c", 2, 5, 8⟩ ⟨"a", 1, 4, 4⟩ ⟨"a", 5, 6, 8⟩ (by decide)).2.2
      (by decide) (by decide) (by decide)⟩

/-- C1 counterexample: inserting an event at a beat already occupied by a
different-id event and undoing the insertion removes the wrong event (the
comparator treats equal-beat events as equal), so the store after undo is
observably different from the original: the original event (id "a",
beat 1, 4/4) is gone. -/
theorem claim_C1_counterexample :
    insertActionUndo (insertActionPerform
        ⟨[⟨"a", 1, 4, 4⟩], []⟩ ⟨"b", 1, 3, 4⟩) ⟨"b", 1, 3, 4⟩ ≠
      (⟨[⟨"a", 1, 4, 4⟩], []⟩ : SequenceState) ∧
    (⟨"a", 1, 4, 4⟩ : TimeSignatureEvent) ∈
      (⟨[⟨"a", 1, 4, 4⟩], []⟩ : SequenceState).midiEvents ∧
    (⟨"a", 1, 4, 4⟩ : TimeSignatureEvent) ∉
      (insertActionUndo (insertActionPerform
        ⟨[⟨"a", 1, 4, 4⟩], []⟩ ⟨"b", 1, 3, 4⟩) ⟨"b", 1, 3, 4⟩).midiEvents := by
  decide

end Helio
